import Mathlib

/-!
Verification of the odespy solver lifecycle and stepping engine.

The scalar-ODE case is embedded shallowly: Python floats are modelled by
rationals (exact arithmetic), the solution array `u` and the time array `t`
by lists of rationals, and the per-method `advance` operation by a function
from the current state `(u, t, n)` to the new value `u[n+1]`.

Definitions whose doc comment starts with a word other than `Modelled` are
translated directly from the code blocks in `src/odespy/__init__.py`
(the `ForwardEuler` and `AdamsBashforth2` classes, the parameter table
example, and the module-level docstring patching loop).  Definitions whose
doc comment starts with `Modelled from the spec:` embed parts of the
package (the generic `Solver.solve` loop, the parameter registry, and
`switch_to`) whose implementation file `solvers.py` is not part of the
sources at hand; they follow the specification text.
-/

/-- Right-hand side f(u, t) of the ODE, for a scalar problem. -/
abbrev RHS : Type := ℚ → ℚ → ℚ

/-- A step advancer: from the state (u, t, n) compute the value u[n+1]. -/
abbrev Advancer : Type := List ℚ → List ℚ → ℕ → ℚ

/-- A termination predicate terminate(u, t, step_no). -/
abbrev TermPred : Type := List ℚ → List ℚ → ℕ → Bool

/-- Modelled from the spec: the generic part of `Solver.initialize_for_solve`
(implemented in `solvers.py`, not among the sources) allocates storage for
the solution, one slot per requested time point with uncomputed future
slots left at zero, and loads the initial condition into slot 0. -/
def initialize_for_solve (u0 : ℚ) (tp : List ℚ) : List ℚ :=
  (List.replicate tp.length 0).set 0 u0

/-- Evaluation of an optional termination predicate: absent means never stop. -/
def termCheck (terminate : Option TermPred) (u t : List ℚ) (m : ℕ) : Bool :=
  match terminate with
  | some p => p u t m
  | none => false

/-- Modelled from the spec: the main time loop of `Solver.solve`
(implemented in `solvers.py`, not among the sources).  For step index
n = 0 .. len(t)-2 it calls the advancer to compute u[n+1], stores it,
then consults the termination predicate at step_no = n+1; a true return
truncates u and t to the steps actually taken and stops. -/
def timeLoop (adv : Advancer) (terminate : Option TermPred) (t : List ℚ)
    (n : ℕ) (u : List ℚ) : List ℚ × List ℚ :=
  if h : n + 1 < t.length then
    let u' := u.set (n + 1) (adv u t n)
    if termCheck terminate u' t (n + 1) then (u'.take (n + 2), t.take (n + 2))
    else timeLoop adv terminate t (n + 1) u'
  else (u, t)
termination_by t.length - n
decreasing_by simp_wf; omega

/-- Modelled from the spec: `Solver.solve(time_points, terminate)`
(implemented in `solvers.py`, not among the sources): allocate and seed
the state via `initialize_for_solve`, then run the time loop from n = 0. -/
def solve (adv : Advancer) (terminate : Option TermPred) (u0 : ℚ)
    (tp : List ℚ) : List ℚ × List ℚ :=
  timeLoop adv terminate tp 0 (initialize_for_solve u0 tp)

/-- Instrumented variant of the time loop for a supplied termination
predicate: besides the result it returns the trace of `terminate`
invocations, in order, each recorded as a triple
(u before the step, u passed to terminate, step_no passed to terminate). -/
def timeLoopT (adv : Advancer) (term : TermPred) (t : List ℚ)
    (n : ℕ) (u : List ℚ) : List ℚ × List ℚ × List (List ℚ × List ℚ × ℕ) :=
  if h : n + 1 < t.length then
    let u' := u.set (n + 1) (adv u t n)
    if term u' t (n + 1) then (u'.take (n + 2), t.take (n + 2), [(u, u', n + 1)])
    else
      let r := timeLoopT adv term t (n + 1) u'
      (r.1, r.2.1, (u, u', n + 1) :: r.2.2)
  else (u, t, [])
termination_by t.length - n
decreasing_by simp_wf; omega

/-- `solve` with a termination predicate, instrumented with the invocation
trace of the predicate. -/
def solveT (adv : Advancer) (term : TermPred) (u0 : ℚ) (tp : List ℚ) :
    List ℚ × List ℚ × List (List ℚ × List ℚ × ℕ) :=
  timeLoopT adv term tp 0 (initialize_for_solve u0 tp)

/-- ForwardEuler.advance, translated from the class code in the package
source: dt = t[n+1] - t[n]; unew = u[n] + dt*f(u[n], t[n]). -/
def ForwardEuler.advance (f : RHS) (u t : List ℚ) (n : ℕ) : ℚ :=
  let dt := t.getD (n + 1) 0 - t.getD n 0
  u.getD n 0 + dt * f (u.getD n 0) (t.getD n 0)

/-- The successive differences time_points[i+1] - time_points[i]. -/
def stepSizes (tp : List ℚ) : List ℚ :=
  List.zipWith (fun a b => b - a) tp tp.tail

/-- Modelled from the spec: the utility `Solver.constant_time_step`
(implemented in `solvers.py`, not among the sources) reports whether the
spacing of the time points is constant. -/
def constant_time_step (tp : List ℚ) : Bool :=
  match stepSizes tp with
  | [] => true
  | d :: ds => ds.all (fun x => x == d)

/-- AdamsBashforth2.validate_data, translated from the class code in the
package source: the data are valid exactly when the time step is constant
(the diagnostic print is a side effect outside the model). -/
def AdamsBashforth2.validate_data (tp : List ℚ) : Bool :=
  constant_time_step tp

/-- AdamsBashforth2.advance, translated from the class code in the package
source.  The mutable history attribute f_n_1 is threaded explicitly: the
function returns the pair (unew, new value of f_n_1).  The starter solver
instance built by switch_to(start_method) is represented by its advancer,
and in the first step (n = 0) it is seeded with u[n], driven by a fresh
`solve` over the two time points [t[n], t[n+1]], and its final value
u_starter[-1] is taken, after which the instance plays no further role. -/
def AdamsBashforth2.advance (f : RHS) (starter : Advancer) (u t : List ℚ)
    (n : ℕ) (f_n_1 : ℚ) : ℚ × ℚ :=
  if 1 ≤ n then
    let dt := t.getD (n + 1) 0 - t.getD n 0
    let f_n := f (u.getD n 0) (t.getD n 0)
    (u.getD n 0 + dt / 2 * (3 * f_n - f_n_1), f_n)
  else
    let time_points := [t.getD n 0, t.getD (n + 1) 0]
    let u_starter := (solve starter none (u.getD n 0) time_points).1
    (u_starter.getD (u_starter.length - 1) 0, f (u.getD 0 0) (t.getD 0 0))

/-- Modelled from the spec: the generic time loop specialised to the
AdamsBashforth2 advancer, threading the retained f-history slot f_n_1. -/
def AdamsBashforth2.timeLoop (f : RHS) (starter : Advancer) (t : List ℚ)
    (n : ℕ) (u : List ℚ) (f_n_1 : ℚ) : List ℚ :=
  if h : n + 1 < t.length then
    AdamsBashforth2.timeLoop f starter t (n + 1)
      (u.set (n + 1) (AdamsBashforth2.advance f starter u t n f_n_1).1)
      (AdamsBashforth2.advance f starter u t n f_n_1).2
  else u
termination_by t.length - n
decreasing_by simp_wf; omega

/-- The ValidationError raised by solve when validate_data fails; it carries
the u and t state at the moment of the abort. -/
inductive SolveError : Type
  | validationError (u t : List ℚ)
deriving DecidableEq

/-- Modelled from the spec: `Solver.solve` for the AdamsBashforth2 method
(the driver lives in `solvers.py`, not among the sources):
initialize_for_solve allocates u, seeds the initial condition and builds the
starter; then validate_data is consulted, and a failed validation aborts
with a ValidationError before any stepping; otherwise the time loop runs
with the multistep advancer.  The initial value of the threaded f_n_1 slot
is irrelevant because the first step takes the starter branch. -/
def AdamsBashforth2.solve (f : RHS) (starter : Advancer) (u0 : ℚ)
    (tp : List ℚ) : Except SolveError (List ℚ × List ℚ) :=
  let u := initialize_for_solve u0 tp
  if AdamsBashforth2.validate_data tp then
    Except.ok (AdamsBashforth2.timeLoop f starter tp 0 u 0, tp)
  else
    Except.error (SolveError.validationError u tp)

/-- Python value types used by the parameter registry model. -/
inductive PTy : Type
  | tint
  | tfloat
  | tstr
  | tbool
deriving DecidableEq

/-- Python values stored in the configuration model. -/
inductive PVal : Type
  | pint (i : ℤ)
  | pfloat (q : ℚ)
  | pstr (s : String)
  | pbool (b : Bool)
deriving DecidableEq

/-- The Python type of a value. -/
def PVal.ty : PVal → PTy
  | pint _ => PTy.tint
  | pfloat _ => PTy.tfloat
  | pstr _ => PTy.tstr
  | pbool _ => PTy.tbool

/-- The numeric content of a value, when it has one. -/
def PVal.num : PVal → Option ℚ
  | pint i => some (i : ℚ)
  | pfloat q => some q
  | pstr _ => none
  | pbool _ => none

/-- A registered parameter, as in the global _parameters dictionary shown in
the package source: name, help text, accepted type or tuple of types, and an
optional legal range. -/
structure ParamSpec : Type where
  name : String
  help : String
  types : List PTy
  range : Option (ℚ × ℚ)
deriving DecidableEq

/-- Range membership check against a declared range, for numeric values. -/
def rangeOK (spec : ParamSpec) (v : PVal) : Bool :=
  match spec.range, v.num with
  | some lohi, some q => decide (lohi.1 ≤ q ∧ q ≤ lohi.2)
  | some _, none => true
  | none, _ => true

/-- Configuration errors of the parameter system.  The invalid-value error
names the parameter, the offending value, and the expected constraint
(declared types and range). -/
inductive ParamError : Type
  | unknownParameter (pname : String)
  | invalidParameterValue (pname : String) (value : PVal)
      (expected_types : List PTy) (expected_range : Option (ℚ × ℚ))
deriving DecidableEq

/-- Modelled from the spec: `Solver.set` for one parameter (the registry
machinery lives in `solvers.py`, not among the sources).  An unregistered
name raises UnknownParameterError; a value whose type is not among the
declared types, or outside the declared range, raises
InvalidParameterValueError naming the parameter, the offending value and
the expected constraint; otherwise the configuration entry is overwritten. -/
def set_param (registry : List ParamSpec) (cfg : List (String × PVal))
    (pname : String) (v : PVal) : Except ParamError (List (String × PVal)) :=
  match registry.find? (fun s => s.name == pname) with
  | none => Except.error (ParamError.unknownParameter pname)
  | some spec =>
      if v.ty ∈ spec.types then
        if rangeOK spec v then
          Except.ok ((pname, v) :: cfg.filter (fun kv => kv.1 != pname))
        else
          Except.error (ParamError.invalidParameterValue pname v spec.types
            spec.range)
      else
        Except.error (ParamError.invalidParameterValue pname v spec.types
          spec.range)

/-- Modelled from the spec: `Solver.get` for one parameter. -/
def get_param (cfg : List (String × PVal)) (pname : String) : Option PVal :=
  (cfg.find? (fun kv => kv.1 == pname)).map (fun kv => kv.2)

/-- The theta parameter entry of the _parameters dictionary, translated from
the package source: type (int, float), default 0.5, range [0, 1]. -/
def theta_spec : ParamSpec :=
  ⟨"theta", "Weight in 0..1 used for theta-rule finite difference approx",
   [PTy.tint, PTy.tfloat], some (0, 1)⟩

/-- A solver instance for the aliasing model: the configuration maps each
parameter name to a heap cell holding its value (attribute storage). -/
structure Solver : Type where
  params : List (String × ℕ)

/-- The heap of configuration cells. -/
abbrev Heap : Type := List PVal

/-- Read a configuration value of a solver instance from the heap. -/
def read_param (h : Heap) (s : Solver) (pname : String) : Option PVal :=
  (s.params.find? (fun kv => kv.1 == pname)).bind (fun kv => h[kv.2]?)

/-- Overwrite a configuration value of a solver instance in place. -/
def write_param (h : Heap) (s : Solver) (pname : String) (v : PVal) : Heap :=
  match s.params.find? (fun kv => kv.1 == pname) with
  | some kv => h.set kv.2 v
  | none => h

/-- Allocate one fresh cell index per copied entry, starting at base. -/
def alloc_cells (base : ℕ) : List (String × PVal) → List (String × ℕ)
  | [] => []
  | (pname, _) :: rest => (pname, base) :: alloc_cells (base + 1) rest

/-- The compatible configuration entries of the source instance together
with their current values. -/
def copied_params (h : Heap) (src : Solver) (compatible : List String) :
    List (String × PVal) :=
  compatible.filterMap (fun p => (read_param h src p).map (fun v => (p, v)))

/-- Modelled from the spec: `Solver.switch_to(method_name)` (implemented in
`solvers.py`, not among the sources) builds a new, independently configured
solver instance of the named method: every compatible parameter value
present in the source instance is copied by value into fresh heap cells, so
the two instances share no mutable configuration state. -/
def switch_to (h : Heap) (src : Solver) (compatible : List String) :
    Heap × Solver :=
  (h ++ (copied_params h src compatible).map (fun pv => pv.2),
   ⟨alloc_cells h.length (copied_params h src compatible)⟩)

/-- The named hook bodies a class runs, in order, when initialize_for_solve
is invoked, read off the class code in the package source:
AdamsBashforth2.initialize_for_solve builds the starter and then explicitly
calls Solver.initialize_for_solve; ForwardEuler does not override the hook
and so runs the base version alone. -/
def AdamsBashforth2.initialize_chain : List String :=
  ["AdamsBashforth2.initialize_for_solve", "Solver.initialize_for_solve"]

/-- Hook bodies run by ForwardEuler for initialize_for_solve (inherited). -/
def ForwardEuler.initialize_chain : List String :=
  ["Solver.initialize_for_solve"]

/-- The named hook bodies a class runs when validate_data is invoked, read
off the class code in the package source: the AdamsBashforth2 override only
checks constant_time_step and contains no call to the parent version. -/
def AdamsBashforth2.validate_chain : List String :=
  ["AdamsBashforth2.validate_data"]

/-- Hook bodies run by ForwardEuler for validate_data (inherited). -/
def ForwardEuler.validate_chain : List String :=
  ["Solver.validate_data"]

/-- The concrete solver classes of the embedding, each with its
initialize_for_solve hook chain and its validate_data hook chain. -/
def concrete_classes : List (String × List String × List String) :=
  [("ForwardEuler", ForwardEuler.initialize_chain, ForwardEuler.validate_chain),
   ("AdamsBashforth2", AdamsBashforth2.initialize_chain,
     AdamsBashforth2.validate_chain)]

/-- Modelled from the spec: the starter method of a multistep solver is
resolved from the explicit, user-overridable start_method configuration
value through a fixed method table, with RK2 as the documented default. -/
def resolve_starter (table : String → Advancer) (cfg : List (String × PVal)) :
    Advancer :=
  match get_param cfg ("start_method") with
  | some (PVal.pstr s) => table s
  | some (PVal.pint _) => table ("RK2")
  | some (PVal.pfloat _) => table ("RK2")
  | some (PVal.pbool _) => table ("RK2")
  | none => table ("RK2")

/-- One full AdamsBashforth2 run as a function of its inputs, the starter
being resolved from the configuration. -/
def ab2_run (table : String → Advancer) (cfg : List (String × PVal))
    (f : RHS) (u0 : ℚ) (tp : List ℚ) : Except SolveError (List ℚ × List ℚ) :=
  AdamsBashforth2.solve f (resolve_starter table cfg) u0 tp

/-- A Python class object as seen by the docstring patching loop: its
docstring and its optional quick_description attribute. -/
structure PyClass : Type where
  doc : String
  quick_description : Option String

/-- The module-level docstring patching loop, translated from the package
source epilogue: for each name bound to a class object in the module
namespace, append table_of_parameters(class) to that class docstring, and
collect the pair (classname, quick_description) when the class has a
quick_description.  Class objects live in a heap (index = object identity)
so that names bound to the same object share mutations; the names argument
is the classnames list with the bound object ids. -/
def patch_loop (tableOf : PyClass → String) (classes : List PyClass) :
    List (String × ℕ) → List PyClass × List (String × String)
  | [] => (classes, [])
  | (cname, cid) :: rest =>
      let classes2 :=
        match classes[cid]? with
        | some c => classes.set cid ⟨c.doc ++ tableOf c, c.quick_description⟩
        | none => classes
      let tocEntry :=
        match classes2[cid]? with
        | some c =>
            match c.quick_description with
            | some qd => [(cname, qd)]
            | none => ([] : List (String × String))
        | none => ([] : List (String × String))
      let r := patch_loop tableOf classes2 rest
      (r.1, tocEntry ++ r.2)

/-- The helper names removed from the module namespace by the del statement
at the end of the package source. -/
def helper_names : List String :=
  ["class_", "doc_str", "classname", "classnames", "toc", "typeset_toc",
   "table_of_parameters", "name", "obj", "inspect"]

/-- The del statement of the package source epilogue: remove the helper
names from the module namespace. -/
def cleanup_namespace (ns : List String) : List String :=
  ns.filter (fun x => !(helper_names.contains x))

theorem length_initialize_for_solve (u0 : ℚ) (tp : List ℚ) :
    (initialize_for_solve u0 tp).length = tp.length := by
  simp [initialize_for_solve]

theorem timeLoop_none_spec (adv : Advancer) (t : List ℚ) :
    ∀ k n u, t.length - n ≤ k →
      (timeLoop adv none t n u).2 = t ∧
      (timeLoop adv none t n u).1.length = u.length := by
  intro k
  induction k with
  | zero =>
      intro n u hk
      rw [timeLoop]
      have h : ¬ (n + 1 < t.length) := by omega
      simp [h]
  | succ k ih =>
      intro n u hk
      rw [timeLoop]
      by_cases h : n + 1 < t.length
      · have hrec := ih (n + 1) (u.set (n + 1) (adv u t n)) (by omega)
        simp only [h, dite_true, termCheck]
        simpa [List.length_set] using hrec
      · simp [h]

/-- Claim C1: a call `solve(time_points)` with no terminate predicate, on a
monotonic `time_points` of N+1 numbers, returns a pair (u, t) where both
arrays have length exactly N+1 and t is element-for-element the given
`time_points` (identity passthrough). -/
theorem c1_solve_identity_passthrough (adv : Advancer) (u0 : ℚ)
    (tp : List ℚ) (N : ℕ) (hN : tp.length = N + 1)
    (hmono : tp.Chain' (· < ·)) :
    (solve adv none u0 tp).1.length = N + 1 ∧
    (solve adv none u0 tp).2.length = N + 1 ∧
    (solve adv none u0 tp).2 = tp := by
  have h := timeLoop_none_spec adv tp tp.length 0 (initialize_for_solve u0 tp)
    (by omega)
  refine ⟨?_, ?_, ?_⟩
  · rw [solve, h.2, length_initialize_for_solve, hN]
  · rw [solve, h.1, hN]
  · rw [solve, h.1]

/-- Witness for C1 at time_points = [0, 1, 2] (N = 2), u0 = 1, with the
zero advancer. -/
theorem c1_solve_identity_passthrough_witness :
    (solve (fun _ _ _ => 0) none 1 [0, 1, 2]).1.length = 2 + 1 ∧
    (solve (fun _ _ _ => 0) none 1 [0, 1, 2]).2.length = 2 + 1 ∧
    (solve (fun _ _ _ => 0) none 1 [0, 1, 2]).2 = [0, 1, 2] :=
  c1_solve_identity_passthrough (fun _ _ _ => 0) 1 [0, 1, 2] 2 (by decide)
    (by norm_num [List.chain'_cons])

theorem timeLoopT_agrees (adv : Advancer) (term : TermPred) (t : List ℚ) :
    ∀ k n u, t.length - n ≤ k →
      ((timeLoopT adv term t n u).1, (timeLoopT adv term t n u).2.1) =
        timeLoop adv (some term) t n u := by
  intro k
  induction k with
  | zero =>
      intro n u hk
      rw [timeLoopT, timeLoop]
      have h : ¬ (n + 1 < t.length) := by omega
      simp [h]
  | succ k ih =>
      intro n u hk
      rw [timeLoopT, timeLoop]
      by_cases h : n + 1 < t.length
      · simp only [h, dite_true, termCheck]
        by_cases hterm : term (u.set (n + 1) (adv u t n)) t (n + 1)
        · simp [hterm]
        · simp only [hterm, if_false, Bool.false_eq_true]
          exact ih (n + 1) (u.set (n + 1) (adv u t n)) (by omega)
      · simp [h]

theorem timeLoopT_length (adv : Advancer) (term : TermPred) (t : List ℚ) :
    ∀ k n u, t.length - n ≤ k → u.length = t.length →
      (timeLoopT adv term t n u).1.length ≤ t.length ∧
      (n + 1 < t.length → n + 2 ≤ (timeLoopT adv term t n u).1.length) ∧
      (¬ (n + 1 < t.length) → (timeLoopT adv term t n u).1.length = t.length) := by
  intro k
  induction k with
  | zero =>
      intro n u hk hu
      rw [timeLoopT]
      have h : ¬ (n + 1 < t.length) := by omega
      simp [h, hu]
  | succ k ih =>
      intro n u hk hu
      rw [timeLoopT]
      by_cases h : n + 1 < t.length
      · simp only [h, dite_true]
        by_cases hterm : term (u.set (n + 1) (adv u t n)) t (n + 1)
        · simp only [hterm, if_true]
          refine ⟨?_, fun _ => ?_, fun hcon => absurd trivial hcon⟩
          · simp only [List.length_take, List.length_set, hu]
            exact min_le_right _ _
          · simp only [List.length_take, List.length_set, hu]
            exact le_min (le_refl _) (by omega)
        · simp only [hterm, if_false, Bool.false_eq_true]
          have hrec := ih (n + 1) (u.set (n + 1) (adv u t n)) (by omega)
            (by simp [List.length_set, hu])
          refine ⟨hrec.1, fun _ => ?_, fun hcon => absurd trivial hcon⟩
          by_cases h2 : n + 2 < t.length
          · have := hrec.2.1 h2
            omega
          · have := hrec.2.2 h2
            omega
      · simp [h, hu]

theorem timeLoopT_spec (adv : Advancer) (term : TermPred) (t : List ℚ) :
    ∀ k n u, t.length - n ≤ k → u.length = t.length →
      ((timeLoopT adv term t n u).2.2.map (fun x => x.2.2) =
        List.range' (n + 1) ((timeLoopT adv term t n u).1.length - 1 - n)) ∧
      (∀ x ∈ (timeLoopT adv term t n u).2.2,
        x.2.1 = x.1.set x.2.2 (adv x.1 t (x.2.2 - 1))) ∧
      (timeLoopT adv term t n u).2.1 = t.take (timeLoopT adv term t n u).1.length ∧
      (timeLoopT adv term t n u).1.length = (timeLoopT adv term t n u).2.1.length := by
  intro k
  induction k with
  | zero =>
      intro n u hk hu
      rw [timeLoopT]
      have h : ¬ (n + 1 < t.length) := by omega
      have hz : t.length - 1 - n = 0 := by omega
      simp [h, hu, hz]
  | succ k ih =>
      intro n u hk hu
      rw [timeLoopT]
      by_cases h : n + 1 < t.length
      · simp only [h, dite_true]
        by_cases hterm : term (u.set (n + 1) (adv u t n)) t (n + 1)
        · simp only [hterm, if_true]
          have hlen : ((u.set (n + 1) (adv u t n)).take (n + 2)).length = n + 2 := by
            simp only [List.length_take, List.length_set, hu]
            omega
          refine ⟨?_, ?_, ?_, ?_⟩
          · simp only [hlen, List.map_cons, List.map_nil]
            have : n + 2 - 1 - n = 1 := by omega
            rw [this]
            simp [List.range'_one]
          · intro x hx
            simp only [List.mem_singleton] at hx
            subst hx
            simp
          · simp [hlen]
          · simp only [hlen, List.length_take, hu]
            omega
        · simp only [hterm, if_false, Bool.false_eq_true]
          have hu2 : (u.set (n + 1) (adv u t n)).length = t.length := by
            simp [List.length_set, hu]
          have hrec := ih (n + 1) (u.set (n + 1) (adv u t n)) (by omega) hu2
          have hlen := timeLoopT_length adv term t (t.length - (n + 1))
            (n + 1) (u.set (n + 1) (adv u t n)) (le_refl _) hu2
          refine ⟨?_, ?_, hrec.2.2.1, hrec.2.2.2⟩
          · simp only [List.map_cons, hrec.1]
            have hge : n + 2 ≤ (timeLoopT adv term t (n + 1)
                (u.set (n + 1) (adv u t n))).1.length := by
              by_cases h2 : n + 2 < t.length
              · have := hlen.2.1 h2
                omega
              · have := hlen.2.2 h2
                omega
            have harith : (timeLoopT adv term t (n + 1)
                (u.set (n + 1) (adv u t n))).1.length - 1 - n =
              ((timeLoopT adv term t (n + 1)
                (u.set (n + 1) (adv u t n))).1.length - 1 - (n + 1)) + 1 := by
              omega
            rw [harith, List.range'_succ]
          · intro x hx
            simp only [List.mem_cons] at hx
            rcases hx with hx | hx
            · subst hx
              simp
            · exact hrec.2.1 x hx
      · simp only [h, dite_false]
        have hz : t.length - 1 - n = 0 := by omega
        simp [h, hu, hz]

/-- Claim C2: with a terminate predicate supplied, terminate(u, t, step_no)
is invoked exactly once per accepted step (step numbers 1 .. K in order,
where K is the number of accepted steps), each time after that step value
has been written into slot step_no and never before; when it returns true
the loop stops and the returned (u, t) are truncated to exactly the steps
taken, with no trailing unfilled entries.  The last conjunct checks the
instrumented run against the plain `solve`. -/
theorem c2_terminate_protocol (adv : Advancer) (term : TermPred) (u0 : ℚ)
    (tp : List ℚ) :
    ((solveT adv term u0 tp).2.2.map (fun x => x.2.2) =
      List.range' 1 ((solveT adv term u0 tp).1.length - 1)) ∧
    (∀ x ∈ (solveT adv term u0 tp).2.2,
      x.2.1 = x.1.set x.2.2 (adv x.1 tp (x.2.2 - 1))) ∧
    (solveT adv term u0 tp).2.1 = tp.take (solveT adv term u0 tp).1.length ∧
    (solveT adv term u0 tp).1.length = (solveT adv term u0 tp).2.1.length ∧
    ((solveT adv term u0 tp).1, (solveT adv term u0 tp).2.1) =
      solve adv (some term) u0 tp := by
  have hu : (initialize_for_solve u0 tp).length = tp.length :=
    length_initialize_for_solve u0 tp
  have hspec := timeLoopT_spec adv term tp tp.length 0
    (initialize_for_solve u0 tp) (by omega) hu
  have hagree := timeLoopT_agrees adv term tp tp.length 0
    (initialize_for_solve u0 tp) (by omega)
  refine ⟨?_, hspec.2.1, hspec.2.2.1, hspec.2.2.2, hagree⟩
  have := hspec.1
  simpa using this

theorem getD_set_ne (l : List ℚ) (i j : ℕ) (x : ℚ) (h : i ≠ j) :
    (l.set i x).getD j 0 = l.getD j 0 := by
  simp [List.getD_eq_getElem?_getD, List.getElem?_set_ne h]

theorem getD_initialize_for_solve_pos (u0 : ℚ) (tp : List ℚ) (i : ℕ)
    (hi : 1 ≤ i) : (initialize_for_solve u0 tp).getD i 0 = 0 := by
  rw [initialize_for_solve]
  have hne : (0 : ℕ) ≠ i := by omega
  rw [getD_set_ne _ _ _ _ hne]
  rw [List.getD_eq_getElem?_getD, List.getElem?_replicate]
  split <;> rfl

/-- Claim C3: feeding the fixed-step multistep solver AdamsBashforth2 a
time_points sequence whose spacing is not constant makes solve abort with a
ValidationError before any stepping occurs: the u carried by the error holds
only the seeded initial condition, every entry past index 0 still being the
unfilled zero. -/
theorem c3_nonconstant_spacing_validation (f : RHS) (starter : Advancer)
    (u0 : ℚ) (tp : List ℚ)
    (h : constant_time_step tp = false) :
    AdamsBashforth2.solve f starter u0 tp =
      Except.error (SolveError.validationError (initialize_for_solve u0 tp) tp) ∧
    ∀ i, 1 ≤ i → (initialize_for_solve u0 tp).getD i 0 = 0 := by
  constructor
  · rw [AdamsBashforth2.solve]
    simp [AdamsBashforth2.validate_data, h]
  · intro i hi
    exact getD_initialize_for_solve_pos u0 tp i hi

/-- Witness for C3 at the non-uniform time_points [0, 1, 3]. -/
theorem c3_nonconstant_spacing_validation_witness :
    constant_time_step [(0 : ℚ), 1, 3] = false ∧
    (AdamsBashforth2.solve (fun u _ => u) (fun _ _ _ => 0) 1 [0, 1, 3] =
      Except.error (SolveError.validationError
        (initialize_for_solve 1 [0, 1, 3]) [0, 1, 3]) ∧
     ∀ i, 1 ≤ i → (initialize_for_solve 1 [(0 : ℚ), 1, 3]).getD i 0 = 0) :=
  ⟨by norm_num [constant_time_step, stepSizes],
   c3_nonconstant_spacing_validation (fun u _ => u) (fun _ _ _ => 0) 1
     [0, 1, 3] (by norm_num [constant_time_step, stepSizes])⟩

/-- Claim C5: the Forward Euler advancer is a pure function of u[n], t[n]
and t[n+1] only: it returns u[n] + (t[n+1] - t[n]) * f(u[n], t[n]); any two
states agreeing on those three values give the same step value; and
installing the step result mutates no slot of u besides the appended slot
n+1. -/
theorem c5_forward_euler_pure (f : RHS) (u t u2 t2 : List ℚ) (n : ℕ)
    (hu : u.getD n 0 = u2.getD n 0)
    (ht : t.getD n 0 = t2.getD n 0)
    (ht1 : t.getD (n + 1) 0 = t2.getD (n + 1) 0) :
    ForwardEuler.advance f u t n =
      u.getD n 0 + (t.getD (n + 1) 0 - t.getD n 0) * f (u.getD n 0) (t.getD n 0) ∧
    ForwardEuler.advance f u t n = ForwardEuler.advance f u2 t2 n ∧
    ∀ i, i ≠ n + 1 →
      (u.set (n + 1) (ForwardEuler.advance f u t n)).getD i 0 = u.getD i 0 := by
  refine ⟨rfl, ?_, ?_⟩
  · simp only [ForwardEuler.advance]
    rw [hu, ht, ht1]
  · intro i hi
    exact getD_set_ne u (n + 1) i _ (Ne.symm hi)

/-- Witness for C5 with u = [2, 0], t = [0, 1], and a second state
u2 = [2, 9, 9], t2 = [0, 1, 7] agreeing at the three read positions. -/
theorem c5_forward_euler_pure_witness :
    (ForwardEuler.advance (fun a b => a + b) [2, 0] [0, 1] 0 =
      ([2, 0] : List ℚ).getD 0 0 +
        (([0, 1] : List ℚ).getD 1 0 - ([0, 1] : List ℚ).getD 0 0) *
          (fun a b => a + b) (([2, 0] : List ℚ).getD 0 0)
            (([0, 1] : List ℚ).getD 0 0)) ∧
    ForwardEuler.advance (fun a b => a + b) [2, 0] [0, 1] 0 =
      ForwardEuler.advance (fun a b => a + b) [2, 9, 9] [0, 1, 7] 0 ∧
    ∀ i, i ≠ 0 + 1 →
      (([2, 0] : List ℚ).set (0 + 1)
        (ForwardEuler.advance (fun a b => a + b) [2, 0] [0, 1] 0)).getD i 0 =
        ([2, 0] : List ℚ).getD i 0 :=
  c5_forward_euler_pure (fun a b => a + b) [2, 0] [0, 1] [2, 9, 9] [0, 1, 7] 0
    (by decide) (by decide) (by decide)

theorem getD_set_self (l : List ℚ) (i : ℕ) (x : ℚ) (h : i < l.length) :
    (l.set i x).getD i 0 = x := by
  simp [List.getD_eq_getElem?_getD, List.getElem?_set_self h]

theorem ab2_timeLoop_step (f : RHS) (starter : Advancer) (t : List ℚ)
    (n : ℕ) (u : List ℚ) (d : ℚ) (h : n + 1 < t.length) :
    AdamsBashforth2.timeLoop f starter t n u d =
      AdamsBashforth2.timeLoop f starter t (n + 1)
        (u.set (n + 1) (AdamsBashforth2.advance f starter u t n d).1)
        (AdamsBashforth2.advance f starter u t n d).2 := by
  rw [AdamsBashforth2.timeLoop]
  simp [h]

theorem ab2_timeLoop_end (f : RHS) (starter : Advancer) (t : List ℚ)
    (n : ℕ) (u : List ℚ) (d : ℚ) (h : ¬ (n + 1 < t.length)) :
    AdamsBashforth2.timeLoop f starter t n u d = u := by
  rw [AdamsBashforth2.timeLoop]
  simp [h]

theorem ab2_advance_multistep (f : RHS) (starter : Advancer) (u t : List ℚ)
    (n : ℕ) (d : ℚ) (hn : 1 ≤ n) :
    AdamsBashforth2.advance f starter u t n d =
      (u.getD n 0 + (t.getD (n + 1) 0 - t.getD n 0) / 2 *
        (3 * f (u.getD n 0) (t.getD n 0) - d),
       f (u.getD n 0) (t.getD n 0)) := by
  rw [AdamsBashforth2.advance]
  simp [hn]

theorem ab2_advance_first (f : RHS) (starter : Advancer) (u t : List ℚ)
    (d : ℚ) :
    AdamsBashforth2.advance f starter u t 0 d =
      ((solve starter none (u.getD 0 0) [t.getD 0 0, t.getD 1 0]).1.getD
        ((solve starter none (u.getD 0 0) [t.getD 0 0, t.getD 1 0]).1.length - 1) 0,
       f (u.getD 0 0) (t.getD 0 0)) := by
  rw [AdamsBashforth2.advance]
  simp

theorem ab2_timeLoop_stable (f : RHS) (starter : Advancer) (t : List ℚ) :
    ∀ k n u d i, t.length - n ≤ k → i ≤ n →
      (AdamsBashforth2.timeLoop f starter t n u d).getD i 0 = u.getD i 0 := by
  intro k
  induction k with
  | zero =>
      intro n u d i hk hi
      rw [ab2_timeLoop_end f starter t n u d (by omega)]
  | succ k ih =>
      intro n u d i hk hi
      by_cases h : n + 1 < t.length
      · rw [ab2_timeLoop_step f starter t n u d h]
        rw [ih (n + 1) _ _ i (by omega) (by omega)]
        exact getD_set_ne u (n + 1) i _ (by omega)
      · rw [ab2_timeLoop_end f starter t n u d h]

theorem ab2_timeLoop_formula (f : RHS) (starter : Advancer) (t : List ℚ) :
    ∀ k n u d, t.length - n ≤ k → u.length = t.length → 1 ≤ n →
      d = f (u.getD (n - 1) 0) (t.getD (n - 1) 0) →
      ∀ m, n ≤ m → m + 1 < t.length →
        (AdamsBashforth2.timeLoop f starter t n u d).getD (m + 1) 0 =
          (AdamsBashforth2.timeLoop f starter t n u d).getD m 0 +
            (t.getD (m + 1) 0 - t.getD m 0) / 2 *
            (3 * f ((AdamsBashforth2.timeLoop f starter t n u d).getD m 0)
                (t.getD m 0) -
             f ((AdamsBashforth2.timeLoop f starter t n u d).getD (m - 1) 0)
                (t.getD (m - 1) 0)) := by
  intro k
  induction k with
  | zero =>
      intro n u d hk hu hn hd m hm hmlt
      exact absurd hmlt (by omega)
  | succ k ih =>
      intro n u d hk hu hn hd m hm hmlt
      have h : n + 1 < t.length := by omega
      rcases Nat.eq_or_lt_of_le hm with heq | hlt
      · subst heq
        rw [ab2_timeLoop_step f starter t n u d h]
        rw [ab2_advance_multistep f starter u t n d hn]
        rw [ab2_timeLoop_stable f starter t (t.length - (n + 1)) (n + 1) _ _
            (n + 1) (le_refl _) (le_refl _)]
        rw [ab2_timeLoop_stable f starter t (t.length - (n + 1)) (n + 1) _ _
            n (le_refl _) (by omega)]
        rw [ab2_timeLoop_stable f starter t (t.length - (n + 1)) (n + 1) _ _
            (n - 1) (le_refl _) (by omega)]
        rw [getD_set_self u (n + 1) _ (by omega)]
        rw [getD_set_ne u (n + 1) n _ (by omega)]
        rw [getD_set_ne u (n + 1) (n - 1) _ (by omega)]
        rw [hd]
      · rw [ab2_timeLoop_step f starter t n u d h]
        have hd2 : (AdamsBashforth2.advance f starter u t n d).2 =
            f ((u.set (n + 1)
                (AdamsBashforth2.advance f starter u t n d).1).getD (n + 1 - 1) 0)
              (t.getD (n + 1 - 1) 0) := by
          rw [ab2_advance_multistep f starter u t n d hn]
          simp only [Nat.add_sub_cancel]
          rw [getD_set_ne u (n + 1) n _ (by omega)]
        exact ih (n + 1) _ _ (by omega) (by simp [List.length_set, hu])
          (by omega) hd2 m (by omega) hmlt

/-- Claim C6: AdamsBashforth2 (k = 1 bootstrap step), run on valid data with
at least one step, takes its first accepted step exactly from an independent
solver run of the configured starter method, seeded with the current u[0]
and driven over exactly the two time points [t[0], t[1]] (one step), and
computes every later step with its own multistep formula
u[n+1] = u[n] + dt/2 * (3 f(u[n], t[n]) - f(u[n-1], t[n-1])) for n >= 1. -/
theorem c6_ab2_starter_and_formula (f : RHS) (starter : Advancer) (u0 : ℚ)
    (tp : List ℚ) (hval : AdamsBashforth2.validate_data tp = true)
    (hlen : 2 ≤ tp.length) :
    ∃ u, AdamsBashforth2.solve f starter u0 tp = Except.ok (u, tp) ∧
      u.getD 0 0 = u0 ∧
      u.getD 1 0 =
        (solve starter none u0 [tp.getD 0 0, tp.getD 1 0]).1.getD
          ((solve starter none u0 [tp.getD 0 0, tp.getD 1 0]).1.length - 1) 0 ∧
      ∀ n, 1 ≤ n → n + 1 < tp.length →
        u.getD (n + 1) 0 = u.getD n 0 +
          (tp.getD (n + 1) 0 - tp.getD n 0) / 2 *
          (3 * f (u.getD n 0) (tp.getD n 0) -
           f (u.getD (n - 1) 0) (tp.getD (n - 1) 0)) := by
  have hlen0 : (initialize_for_solve u0 tp).length = tp.length :=
    length_initialize_for_solve u0 tp
  have h00 : (initialize_for_solve u0 tp).getD 0 0 = u0 := by
    rw [initialize_for_solve]
    refine getD_set_self _ 0 u0 ?_
    simp only [List.length_replicate]
    omega
  have h1 : 0 + 1 < tp.length := by omega
  refine ⟨AdamsBashforth2.timeLoop f starter tp 0 (initialize_for_solve u0 tp) 0,
    ?_, ?_, ?_, ?_⟩
  · rw [AdamsBashforth2.solve]
    simp [hval]
  · rw [ab2_timeLoop_stable f starter tp tp.length 0 _ _ 0 (by omega) (le_refl _)]
    exact h00
  · rw [ab2_timeLoop_step f starter tp 0 _ _ h1,
        ab2_advance_first f starter (initialize_for_solve u0 tp) tp 0]
    rw [ab2_timeLoop_stable f starter tp (tp.length - 1) 1 _ _ 1 (by omega)
        (le_refl _)]
    rw [getD_set_self _ 1 _ (by rw [hlen0]; omega)]
    rw [h00]
  · intro n hn hnlt
    rw [ab2_timeLoop_step f starter tp 0 _ _ h1]
    have hd2 : (AdamsBashforth2.advance f starter
          (initialize_for_solve u0 tp) tp 0 0).2 =
        f (((initialize_for_solve u0 tp).set 1
            (AdamsBashforth2.advance f starter
              (initialize_for_solve u0 tp) tp 0 0).1).getD (1 - 1) 0)
          (tp.getD (1 - 1) 0) := by
      rw [ab2_advance_first f starter (initialize_for_solve u0 tp) tp 0]
      norm_num
    exact ab2_timeLoop_formula f starter tp (tp.length - 1) 1 _ _ (by omega)
      (by simp [List.length_set, hlen0]) (le_refl _) hd2 n hn hnlt

/-- Witness for C6 on tp = [0, 1, 2] with f(u, t) = u and a constant-zero
starter advancer. -/
theorem c6_ab2_starter_and_formula_witness :
    ∃ u, AdamsBashforth2.solve (fun a _ => a) (fun _ _ _ => 0) 1 [0, 1, 2] =
        Except.ok (u, [0, 1, 2]) ∧
      u.getD 0 0 = 1 ∧
      u.getD 1 0 =
        (solve (fun _ _ _ => 0) none 1
          [([(0 : ℚ), 1, 2]).getD 0 0, ([(0 : ℚ), 1, 2]).getD 1 0]).1.getD
          ((solve (fun _ _ _ => 0) none 1
            [([(0 : ℚ), 1, 2]).getD 0 0, ([(0 : ℚ), 1, 2]).getD 1 0]).1.length - 1)
          0 ∧
      ∀ n, 1 ≤ n → n + 1 < ([(0 : ℚ), 1, 2]).length →
        u.getD (n + 1) 0 = u.getD n 0 +
          (([(0 : ℚ), 1, 2]).getD (n + 1) 0 - ([(0 : ℚ), 1, 2]).getD n 0) / 2 *
          (3 * (fun (a : ℚ) (_ : ℚ) => a) (u.getD n 0) (([(0 : ℚ), 1, 2]).getD n 0) -
           (fun (a : ℚ) (_ : ℚ) => a) (u.getD (n - 1) 0)
             (([(0 : ℚ), 1, 2]).getD (n - 1) 0)) :=
  c6_ab2_starter_and_formula (fun a _ => a) (fun _ _ _ => 0) 1 [0, 1, 2]
    (by norm_num [AdamsBashforth2.validate_data, constant_time_step, stepSizes])
    (by norm_num)

/-- Claim C4: for a registered parameter (spec found in the registry),
assigning a value of a wrong declared type raises InvalidParameterValueError
carrying the parameter name, the offending value and the expected
constraint; assigning a value of a declared type and within the declared
range succeeds and the same value is subsequently returned by get. -/
theorem c4_param_type_and_roundtrip (registry : List ParamSpec)
    (cfg : List (String × PVal)) (pname : String) (v : PVal)
    (spec : ParamSpec)
    (hfind : registry.find? (fun s => s.name == pname) = some spec) :
    (v.ty ∉ spec.types →
      set_param registry cfg pname v =
        Except.error (ParamError.invalidParameterValue pname v spec.types
          spec.range)) ∧
    (v.ty ∈ spec.types → rangeOK spec v = true →
      ∃ cfg2, set_param registry cfg pname v = Except.ok cfg2 ∧
        get_param cfg2 pname = some v) := by
  constructor
  · intro hty
    rw [set_param, hfind]
    simp [hty]
  · intro hty hrange
    refine ⟨(pname, v) :: cfg.filter (fun kv => kv.1 != pname), ?_, ?_⟩
    · rw [set_param, hfind]
      simp [hty, hrange]
    · rw [get_param]
      simp

/-- Witness for C4 on the theta parameter: a string value is rejected with
the full constraint in the error, and the in-range float value 1/2
round-trips through get. -/
theorem c4_param_type_and_roundtrip_witness :
    ((PVal.pstr "bad").ty ∉ theta_spec.types →
      set_param [theta_spec] [] ("theta") (PVal.pstr "bad") =
        Except.error (ParamError.invalidParameterValue ("theta")
          (PVal.pstr "bad") theta_spec.types theta_spec.range)) ∧
    ((PVal.pstr "bad").ty ∈ theta_spec.types →
      rangeOK theta_spec (PVal.pstr "bad") = true →
      ∃ cfg2, set_param [theta_spec] [] ("theta") (PVal.pstr "bad") =
          Except.ok cfg2 ∧ get_param cfg2 ("theta") = some (PVal.pstr "bad")) ∧
    ((PVal.pfloat (1 / 2)).ty ∉ theta_spec.types →
      set_param [theta_spec] [] ("theta") (PVal.pfloat (1 / 2)) =
        Except.error (ParamError.invalidParameterValue ("theta")
          (PVal.pfloat (1 / 2)) theta_spec.types theta_spec.range)) ∧
    ((PVal.pfloat (1 / 2)).ty ∈ theta_spec.types →
      rangeOK theta_spec (PVal.pfloat (1 / 2)) = true →
      ∃ cfg2, set_param [theta_spec] [] ("theta") (PVal.pfloat (1 / 2)) =
          Except.ok cfg2 ∧ get_param cfg2 ("theta") = some (PVal.pfloat (1 / 2))) :=
  have h1 := c4_param_type_and_roundtrip [theta_spec] [] ("theta")
    (PVal.pstr "bad") theta_spec (by rw [List.find?]; rfl)
  have h2 := c4_param_type_and_roundtrip [theta_spec] [] ("theta")
    (PVal.pfloat (1 / 2)) theta_spec (by rw [List.find?]; rfl)
  ⟨h1.1, h1.2, h2.1, h2.2⟩

theorem copied_params_cons_none (h : Heap) (src : Solver) (q : String)
    (rest : List String) (hq : read_param h src q = none) :
    copied_params h src (q :: rest) = copied_params h src rest := by
  rw [copied_params, copied_params]
  exact List.filterMap_cons_none (by simp [hq])

theorem copied_params_cons_some (h : Heap) (src : Solver) (q : String)
    (rest : List String) (v : PVal) (hq : read_param h src q = some v) :
    copied_params h src (q :: rest) = (q, v) :: copied_params h src rest := by
  rw [copied_params, copied_params]
  exact List.filterMap_cons_some (by simp [hq])

theorem read_alloc :
    ∀ (copied : List (String × PVal)) (pre : List PVal) (p : String),
      ((alloc_cells pre.length copied).find? (fun kv => kv.1 == p)).bind
        (fun kv => (pre ++ copied.map (fun pv => pv.2))[kv.2]?) =
      (copied.find? (fun pv => pv.1 == p)).map (fun pv => pv.2) := by
  intro copied
  induction copied with
  | nil =>
      intro pre p
      simp [alloc_cells]
  | cons hd rest ih =>
      intro pre p
      obtain ⟨q, w⟩ := hd
      rw [alloc_cells]
      by_cases hq : (q == p) = true
      · rw [List.find?_cons_of_pos _ (by simpa using hq),
            List.find?_cons_of_pos _ (by simpa using hq)]
        simp [List.getElem?_append_right (le_refl pre.length)]
      · rw [List.find?_cons_of_neg _ (by simpa using hq),
            List.find?_cons_of_neg _ (by simpa using hq)]
        have happ : pre ++ (w :: rest.map (fun pv => pv.2)) =
            (pre ++ [w]) ++ rest.map (fun pv => pv.2) := by simp
        have hlen : pre.length + 1 = (pre ++ [w]).length := by simp
        rw [List.map_cons, happ, hlen]
        exact ih (pre ++ [w]) p

theorem copied_find_not_mem (h : Heap) (src : Solver) :
    ∀ (compatible : List String) (p : String), p ∉ compatible →
      (copied_params h src compatible).find? (fun pv => pv.1 == p) = none := by
  intro compatible
  induction compatible with
  | nil =>
      intro p hp
      simp [copied_params]
  | cons q rest ih =>
      intro p hp
      have hpq : p ≠ q := fun e => hp (e ▸ List.mem_cons_self q rest)
      have hprest : p ∉ rest := fun hr => hp (List.mem_cons_of_mem q hr)
      cases hread : read_param h src q with
      | none =>
          rw [copied_params_cons_none h src q rest hread]
          exact ih p hprest
      | some v =>
          rw [copied_params_cons_some h src q rest v hread]
          rw [List.find?_cons_of_neg _ (by
            intro hc
            exact hpq ((by simpa using hc : q = p)).symm)]
          exact ih p hprest

theorem copied_find (h : Heap) (src : Solver) :
    ∀ (compatible : List String) (p : String), p ∈ compatible →
      ((copied_params h src compatible).find? (fun pv => pv.1 == p)).map
        (fun pv => pv.2) = read_param h src p := by
  intro compatible
  induction compatible with
  | nil =>
      intro p hp
      cases hp
  | cons q rest ih =>
      intro p hp
      by_cases hpq : p = q
      · subst hpq
        cases hread : read_param h src p with
        | none =>
            rw [copied_params_cons_none h src p rest hread]
            by_cases hprest : p ∈ rest
            · exact (ih p hprest).trans hread
            · rw [copied_find_not_mem h src rest p hprest]
              rfl
        | some v =>
            rw [copied_params_cons_some h src p rest v hread]
            rw [List.find?_cons_of_pos _ (by simp)]
            rfl
      · have hprest : p ∈ rest := by
          rcases List.mem_cons.mp hp with he | hr
          · exact absurd he hpq
          · exact hr
        cases hread : read_param h src q with
        | none =>
            rw [copied_params_cons_none h src q rest hread]
            exact ih p hprest
        | some v =>
            rw [copied_params_cons_some h src q rest v hread]
            rw [List.find?_cons_of_neg _ (by
              intro hc
              exact hpq ((by simpa using hc : q = p)).symm)]
            exact ih p hprest

theorem alloc_cells_ge :
    ∀ (copied : List (String × PVal)) (base : ℕ) (kv : String × ℕ),
      kv ∈ alloc_cells base copied → base ≤ kv.2 := by
  intro copied
  induction copied with
  | nil =>
      intro base kv hkv
      simp [alloc_cells] at hkv
  | cons hd rest ih =>
      intro base kv hkv
      obtain ⟨q, w⟩ := hd
      rw [alloc_cells] at hkv
      rcases List.mem_cons.mp hkv with he | hr
      · subst he
        exact le_refl base
      · have := ih (base + 1) kv hr
        omega

theorem switch_to_copy_read (h : Heap) (src : Solver)
    (compatible : List String) (p : String) (hp : p ∈ compatible) :
    read_param (switch_to h src compatible).1 (switch_to h src compatible).2 p =
      read_param h src p := by
  rw [switch_to, read_param]
  rw [read_alloc (copied_params h src compatible) h p]
  exact copied_find h src compatible p hp

theorem write_new_preserves_src (h : Heap) (src : Solver)
    (compatible : List String) (hwf : ∀ kv ∈ src.params, kv.2 < h.length)
    (p : String) (v : PVal) (q : String) :
    read_param (write_param (switch_to h src compatible).1
        (switch_to h src compatible).2 p v) src q =
      read_param (switch_to h src compatible).1 src q := by
  rw [write_param]
  cases hfind : (switch_to h src compatible).2.params.find?
      (fun kv => kv.1 == p) with
  | none => rfl
  | some kv =>
      have hkv : h.length ≤ kv.2 := by
        have hmem : kv ∈ (switch_to h src compatible).2.params :=
          List.mem_of_find?_eq_some hfind
        rw [switch_to] at hmem
        exact alloc_cells_ge (copied_params h src compatible) h.length kv hmem
      rw [read_param, read_param]
      cases hfind2 : src.params.find? (fun kv2 => kv2.1 == q) with
      | none => simp [hfind2]
      | some kv2 =>
          have hkv2 : kv2.2 < h.length := hwf kv2 (List.mem_of_find?_eq_some hfind2)
          simp only [hfind2, Option.some_bind]
          exact List.getElem?_set_ne (by omega)

theorem write_src_preserves_new (h : Heap) (src : Solver)
    (compatible : List String) (hwf : ∀ kv ∈ src.params, kv.2 < h.length)
    (p : String) (v : PVal) (q : String) :
    read_param (write_param (switch_to h src compatible).1 src p v)
        (switch_to h src compatible).2 q =
      read_param (switch_to h src compatible).1 (switch_to h src compatible).2 q := by
  rw [write_param]
  cases hfind : src.params.find? (fun kv => kv.1 == p) with
  | none => rfl
  | some kv =>
      have hkv : kv.2 < h.length := hwf kv (List.mem_of_find?_eq_some hfind)
      rw [read_param, read_param]
      cases hfind2 : (switch_to h src compatible).2.params.find?
          (fun kv2 => kv2.1 == q) with
      | none => simp [hfind2]
      | some kv2 =>
          have hkv2 : h.length ≤ kv2.2 := by
            have hmem : kv2 ∈ (switch_to h src compatible).2.params :=
              List.mem_of_find?_eq_some hfind2
            rw [switch_to] at hmem
            exact alloc_cells_ge (copied_params h src compatible) h.length kv2 hmem
          simp only [hfind2, Option.some_bind]
          exact List.getElem?_set_ne (by omega)

/-- Claim C7: switch_to produces an independently configured instance whose
shared (compatible) configuration values equal the source instance values at
the moment of the call, and subsequent mutation of either instance
configuration never changes what the other instance reads (no aliasing of
configuration state). -/
theorem c7_switch_to_no_aliasing (h : Heap) (src : Solver)
    (compatible : List String)
    (hwf : ∀ kv ∈ src.params, kv.2 < h.length) :
    (∀ p ∈ compatible,
      read_param (switch_to h src compatible).1
          (switch_to h src compatible).2 p =
        read_param h src p) ∧
    (∀ p (v : PVal) q,
      read_param (write_param (switch_to h src compatible).1
          (switch_to h src compatible).2 p v) src q =
        read_param (switch_to h src compatible).1 src q) ∧
    (∀ p (v : PVal) q,
      read_param (write_param (switch_to h src compatible).1 src p v)
          (switch_to h src compatible).2 q =
        read_param (switch_to h src compatible).1
          (switch_to h src compatible).2 q) :=
  ⟨fun p hp => switch_to_copy_read h src compatible p hp,
   fun p v q => write_new_preserves_src h src compatible hwf p v q,
   fun p v q => write_src_preserves_new h src compatible hwf p v q⟩

/-- Witness for C7 with a one-cell heap holding theta = 1/2 and a source
instance owning that cell. -/
theorem c7_switch_to_no_aliasing_witness :
    (∀ p ∈ (["theta"] : List String),
      read_param (switch_to [PVal.pfloat (1 / 2)] ⟨[("theta", 0)]⟩ ["theta"]).1
          (switch_to [PVal.pfloat (1 / 2)] ⟨[("theta", 0)]⟩ ["theta"]).2 p =
        read_param [PVal.pfloat (1 / 2)] ⟨[("theta", 0)]⟩ p) ∧
    (∀ p (v : PVal) q,
      read_param (write_param
          (switch_to [PVal.pfloat (1 / 2)] ⟨[("theta", 0)]⟩ ["theta"]).1
          (switch_to [PVal.pfloat (1 / 2)] ⟨[("theta", 0)]⟩ ["theta"]).2 p v)
          ⟨[("theta", 0)]⟩ q =
        read_param
          (switch_to [PVal.pfloat (1 / 2)] ⟨[("theta", 0)]⟩ ["theta"]).1
          ⟨[("theta", 0)]⟩ q) ∧
    (∀ p (v : PVal) q,
      read_param (write_param
          (switch_to [PVal.pfloat (1 / 2)] ⟨[("theta", 0)]⟩ ["theta"]).1
          ⟨[("theta", 0)]⟩ p v)
          (switch_to [PVal.pfloat (1 / 2)] ⟨[("theta", 0)]⟩ ["theta"]).2 q =
        read_param
          (switch_to [PVal.pfloat (1 / 2)] ⟨[("theta", 0)]⟩ ["theta"]).1
          (switch_to [PVal.pfloat (1 / 2)] ⟨[("theta", 0)]⟩ ["theta"]).2 q) :=
  c7_switch_to_no_aliasing [PVal.pfloat (1 / 2)] ⟨[("theta", 0)]⟩ ["theta"]
    (by
      intro kv hkv
      rw [List.mem_singleton] at hkv
      subst hkv
      exact Nat.zero_lt_one)

/-- Claim C8 (evaluation of the source at the defect): the claim that both
hooks compose base-to-derived fails, because the AdamsBashforth2 override of
validate_data never invokes the parent version, although the same source
documents that subclass implementations of validate_data must call the
super class version; the initialize_for_solve chains do all contain the
base hook. -/
theorem c8_validate_hook_code_bug :
    ¬ (∀ c ∈ concrete_classes,
        ("Solver.initialize_for_solve") ∈ c.2.1 ∧
        ("Solver.validate_data") ∈ c.2.2) ∧
    (∀ c ∈ concrete_classes, ("Solver.initialize_for_solve") ∈ c.2.1) ∧
    ("Solver.validate_data") ∉ AdamsBashforth2.validate_chain := by
  refine ⟨?_, ?_, ?_⟩ <;> decide

/-- Claim C9: solving the same problem twice with the same inputs (same
right-hand side, same initial condition, same time points, same method
table and configuration, hence the same configured starter) returns
identical results: the embedded engine is a pure function of these inputs,
the starter being resolved only from the explicit start_method
configuration value. -/
theorem c9_deterministic (table1 table2 : String → Advancer)
    (cfg1 cfg2 : List (String × PVal)) (f1 f2 : RHS) (u01 u02 : ℚ)
    (tp1 tp2 : List ℚ) (htable : table1 = table2) (hcfg : cfg1 = cfg2)
    (hf : f1 = f2) (hu : u01 = u02) (ht : tp1 = tp2) :
    ab2_run table1 cfg1 f1 u01 tp1 = ab2_run table2 cfg2 f2 u02 tp2 := by
  subst htable hcfg hf hu ht
  rfl

/-- Witness for C9: two identical runs on tp = [0, 1, 2]. -/
theorem c9_deterministic_witness :
    ab2_run (fun _ => fun _ _ _ => 0) [] (fun a _ => a) 1 [0, 1, 2] =
      ab2_run (fun _ => fun _ _ _ => 0) [] (fun a _ => a) 1 [0, 1, 2] :=
  c9_deterministic (fun _ => fun _ _ _ => 0) (fun _ => fun _ _ _ => 0) [] []
    (fun a _ => a) (fun a _ => a) 1 1 [0, 1, 2] [0, 1, 2] rfl rfl rfl rfl rfl

theorem patch_loop_nil (tableOf : PyClass → String) (classes : List PyClass) :
    patch_loop tableOf classes [] = (classes, []) := by
  rw [patch_loop]

theorem patch_loop_cons_invalid (tableOf : PyClass → String)
    (classes : List PyClass) (cname : String) (cid : ℕ)
    (rest : List (String × ℕ)) (hc : classes[cid]? = none) :
    patch_loop tableOf classes ((cname, cid) :: rest) =
      patch_loop tableOf classes rest := by
  rw [patch_loop]
  simp [hc]

theorem patch_loop_cons_some_qd (tableOf : PyClass → String)
    (classes : List PyClass) (cname : String) (cid : ℕ)
    (rest : List (String × ℕ)) (c : PyClass) (qd : String)
    (hc : classes[cid]? = some c) (hqd : c.quick_description = some qd) :
    patch_loop tableOf classes ((cname, cid) :: rest) =
      ((patch_loop tableOf
          (classes.set cid ⟨c.doc ++ tableOf c, c.quick_description⟩) rest).1,
       (cname, qd) ::
        (patch_loop tableOf
          (classes.set cid ⟨c.doc ++ tableOf c, c.quick_description⟩) rest).2) := by
  have hlt : cid < classes.length := by
    rcases List.getElem?_eq_some_iff.mp hc with ⟨hl, _⟩
    exact hl
  rw [patch_loop]
  simp [hc, List.getElem?_set_self hlt, hqd]

theorem patch_loop_cons_none_qd (tableOf : PyClass → String)
    (classes : List PyClass) (cname : String) (cid : ℕ)
    (rest : List (String × ℕ)) (c : PyClass)
    (hc : classes[cid]? = some c) (hqd : c.quick_description = none) :
    patch_loop tableOf classes ((cname, cid) :: rest) =
      patch_loop tableOf
        (classes.set cid ⟨c.doc ++ tableOf c, c.quick_description⟩) rest := by
  have hlt : cid < classes.length := by
    rcases List.getElem?_eq_some_iff.mp hc with ⟨hl, _⟩
    exact hl
  rw [patch_loop]
  simp [hc, List.getElem?_set_self hlt, hqd]

theorem patch_loop_untouched (tableOf : PyClass → String) :
    ∀ (names : List (String × ℕ)) (classes : List PyClass) (cid : ℕ),
      cid ∉ names.map (fun e => e.2) →
      (patch_loop tableOf classes names).1[cid]? = classes[cid]? := by
  intro names
  induction names with
  | nil =>
      intro classes cid hcid
      rw [patch_loop_nil]
  | cons hd rest ih =>
      intro classes cid hcid
      obtain ⟨cn, c0⟩ := hd
      have hne : c0 ≠ cid := by
        intro e
        apply hcid
        rw [List.map_cons]
        exact e ▸ List.mem_cons_self _ _
      have hrest : cid ∉ rest.map (fun e => e.2) := by
        intro hr
        apply hcid
        rw [List.map_cons]
        exact List.mem_cons_of_mem _ hr
      cases hc : classes[c0]? with
      | none =>
          rw [patch_loop_cons_invalid tableOf classes cn c0 rest hc]
          exact ih classes cid hrest
      | some c =>
          cases hqd : c.quick_description with
          | none =>
              rw [patch_loop_cons_none_qd tableOf classes cn c0 rest c hc hqd]
              rw [ih _ cid hrest]
              exact List.getElem?_set_ne hne
          | some qd =>
              rw [patch_loop_cons_some_qd tableOf classes cn c0 rest c qd hc hqd]
              have hstep := ih
                (classes.set c0 ⟨c.doc ++ tableOf c, c.quick_description⟩)
                cid hrest
              simp only [hstep]
              exact List.getElem?_set_ne hne

theorem patch_loop_doc (tableOf : PyClass → String) :
    ∀ (names : List (String × ℕ)) (classes : List PyClass),
      (names.map (fun e => e.2)).Nodup →
      (∀ e ∈ names, e.2 < classes.length) →
      ∀ e ∈ names,
        (patch_loop tableOf classes names).1[e.2]? =
          (classes[e.2]?).map
            (fun c => ⟨c.doc ++ tableOf c, c.quick_description⟩) := by
  intro names
  induction names with
  | nil =>
      intro classes hnodup hvalid e he
      cases he
  | cons hd rest ih =>
      intro classes hnodup hvalid e he
      obtain ⟨cn, c0⟩ := hd
      have hc0lt : c0 < classes.length := hvalid (cn, c0) (List.mem_cons_self _ _)
      have hc : classes[c0]? = some (classes[c0]) := List.getElem?_eq_getElem hc0lt
      rw [List.map_cons] at hnodup
      have hnotin : c0 ∉ rest.map (fun e => e.2) := (List.nodup_cons.mp hnodup).1
      have hnodup2 : (rest.map (fun e => e.2)).Nodup :=
        (List.nodup_cons.mp hnodup).2
      rcases List.mem_cons.mp he with heq | hmem
      · subst heq
        cases hqd : (classes[c0]).quick_description with
        | none =>
            rw [patch_loop_cons_none_qd tableOf classes cn c0 rest _ hc hqd]
            rw [patch_loop_untouched tableOf rest _ c0 hnotin]
            rw [List.getElem?_set_self hc0lt, hc]
            rfl
        | some qd =>
            rw [patch_loop_cons_some_qd tableOf classes cn c0 rest _ qd hc hqd]
            have hstep := patch_loop_untouched tableOf rest
              (classes.set c0 ⟨(classes[c0]).doc ++ tableOf (classes[c0]),
                (classes[c0]).quick_description⟩) c0 hnotin
            simp only [hstep]
            rw [List.getElem?_set_self hc0lt, hc]
            rfl
      · have hne2 : e.2 ≠ c0 := by
          intro hcontra
          exact hnotin (hcontra ▸ List.mem_map_of_mem (fun x => x.2) hmem)
        have hvalid2 : ∀ x ∈ rest, x.2 <
            (classes.set c0 ⟨(classes[c0]).doc ++ tableOf (classes[c0]),
              (classes[c0]).quick_description⟩).length := by
          intro x hx
          rw [List.length_set]
          exact hvalid x (List.mem_cons_of_mem _ hx)
        have hrec := ih
          (classes.set c0 ⟨(classes[c0]).doc ++ tableOf (classes[c0]),
            (classes[c0]).quick_description⟩) hnodup2 hvalid2 e hmem
        have hsame : (classes.set c0 ⟨(classes[c0]).doc ++ tableOf (classes[c0]),
            (classes[c0]).quick_description⟩)[e.2]? = classes[e.2]? :=
          List.getElem?_set_ne (fun hcontra => hne2 hcontra.symm)
        cases hqd : (classes[c0]).quick_description with
        | none =>
            rw [patch_loop_cons_none_qd tableOf classes cn c0 rest _ hc hqd]
            rw [hqd] at hrec hsame
            rw [hqd, hrec, hsame]
        | some qd =>
            rw [patch_loop_cons_some_qd tableOf classes cn c0 rest _ qd hc hqd]
            rw [hqd] at hrec hsame
            rw [hqd]
            simp only [hrec, hsame]

theorem patch_loop_toc (tableOf : PyClass → String) :
    ∀ (names : List (String × ℕ)) (classes : List PyClass),
      (names.map (fun e => e.2)).Nodup →
      (∀ e ∈ names, e.2 < classes.length) →
      (patch_loop tableOf classes names).2 =
        names.filterMap (fun e =>
          (classes[e.2]?).bind
            (fun c => c.quick_description.map (fun qd => (e.1, qd)))) := by
  intro names
  induction names with
  | nil =>
      intro classes hnodup hvalid
      rw [patch_loop_nil]
      rfl
  | cons hd rest ih =>
      intro classes hnodup hvalid
      obtain ⟨cn, c0⟩ := hd
      have hc0lt : c0 < classes.length :=
        hvalid (cn, c0) (List.mem_cons_self _ _)
      have hc : classes[c0]? = some (classes[c0]) :=
        List.getElem?_eq_getElem hc0lt
      rw [List.map_cons] at hnodup
      have hnotin : c0 ∉ rest.map (fun e => e.2) := (List.nodup_cons.mp hnodup).1
      have hnodup2 : (rest.map (fun e => e.2)).Nodup :=
        (List.nodup_cons.mp hnodup).2
      have hvalid2 : ∀ x ∈ rest, x.2 <
          (classes.set c0 ⟨(classes[c0]).doc ++ tableOf (classes[c0]),
            (classes[c0]).quick_description⟩).length := by
        intro x hx
        rw [List.length_set]
        exact hvalid x (List.mem_cons_of_mem _ hx)
      have hrec := ih
        (classes.set c0 ⟨(classes[c0]).doc ++ tableOf (classes[c0]),
          (classes[c0]).quick_description⟩) hnodup2 hvalid2
      have hcongr : rest.filterMap (fun e =>
          ((classes.set c0 ⟨(classes[c0]).doc ++ tableOf (classes[c0]),
            (classes[c0]).quick_description⟩)[e.2]?).bind
            (fun c => c.quick_description.map (fun qd => (e.1, qd)))) =
        rest.filterMap (fun e =>
          (classes[e.2]?).bind
            (fun c => c.quick_description.map (fun qd => (e.1, qd)))) := by
        apply List.filterMap_congr
        intro x hx
        have hne : x.2 ≠ c0 := fun hcontra =>
          hnotin (hcontra ▸ List.mem_map_of_mem (fun y => y.2) hx)
        rw [List.getElem?_set_ne (fun hcontra => hne hcontra.symm)]
      cases hqd : (classes[c0]).quick_description with
      | none =>
          rw [patch_loop_cons_none_qd tableOf classes cn c0 rest _ hc hqd]
          rw [hqd] at hrec hcongr
          rw [hqd, hrec, hcongr]
          rw [List.filterMap_cons_none (by simp [hc, hqd])]
      | some qd =>
          rw [patch_loop_cons_some_qd tableOf classes cn c0 rest _ qd hc hqd]
          rw [hqd] at hrec hcongr
          rw [hqd]
          simp only [hrec, hcongr]
          have hhead : List.filterMap (fun e => (classes[e.2]?).bind
              (fun c => c.quick_description.map (fun qd2 => (e.1, qd2))))
              ((cn, c0) :: rest) =
            (cn, qd) :: List.filterMap (fun e => (classes[e.2]?).bind
              (fun c => c.quick_description.map (fun qd2 => (e.1, qd2)))) rest :=
            List.filterMap_cons_some (by simp [hc, hqd])
          rw [hhead]

/-- Claim C10: at import time the docstring patching loop appends
table_of_parameters(class) to the docstring of every class bound in the
namespace exactly once (for a namespace in which no two class names are
bound to the same class object), the generated table of contents lists
exactly those bound classes that carry a quick_description, and the helper
names used for the patching are afterwards removed from the module
namespace. -/
theorem c10_doc_patching (tableOf : PyClass → String) (classes : List PyClass)
    (names : List (String × ℕ))
    (hnodup : (names.map (fun e => e.2)).Nodup)
    (hvalid : ∀ e ∈ names, e.2 < classes.length) :
    (∀ e ∈ names,
      (patch_loop tableOf classes names).1[e.2]? =
        (classes[e.2]?).map
          (fun c => ⟨c.doc ++ tableOf c, c.quick_description⟩)) ∧
    (patch_loop tableOf classes names).2 =
      names.filterMap (fun e =>
        (classes[e.2]?).bind
          (fun c => c.quick_description.map (fun qd => (e.1, qd)))) ∧
    (∀ x ∈ helper_names, ∀ ns, x ∉ cleanup_namespace ns) := by
  refine ⟨patch_loop_doc tableOf names classes hnodup hvalid,
    patch_loop_toc tableOf names classes hnodup hvalid, ?_⟩
  intro x hx ns hmem
  rw [cleanup_namespace] at hmem
  rcases List.mem_filter.mp hmem with ⟨_, hcond⟩
  rw [Bool.not_eq_eq_eq_not, Bool.not_true] at hcond
  have hc2 : helper_names.contains x = true := List.elem_eq_true_of_mem hx
  rw [hc2] at hcond
  simp at hcond

/-- Witness for C10 on a two-class namespace, the first class having a
quick_description and the second not. -/
theorem c10_doc_patching_witness :
    (∀ e ∈ ([("A", 0), ("B", 1)] : List (String × ℕ)),
      (patch_loop (fun _ => "T") [⟨"docA", some "qa"⟩, ⟨"docB", none⟩]
          [("A", 0), ("B", 1)]).1[e.2]? =
        (([⟨"docA", some "qa"⟩, ⟨"docB", none⟩] : List PyClass)[e.2]?).map
          (fun c => ⟨c.doc ++ (fun (_ : PyClass) => "T") c,
            c.quick_description⟩)) ∧
    (patch_loop (fun _ => "T") [⟨"docA", some "qa"⟩, ⟨"docB", none⟩]
        [("A", 0), ("B", 1)]).2 =
      ([("A", 0), ("B", 1)] : List (String × ℕ)).filterMap (fun e =>
        (([⟨"docA", some "qa"⟩, ⟨"docB", none⟩] : List PyClass)[e.2]?).bind
          (fun c => c.quick_description.map (fun qd => (e.1, qd)))) ∧
    (∀ x ∈ helper_names, ∀ ns, x ∉ cleanup_namespace ns) :=
  c10_doc_patching (fun _ => "T") [⟨"docA", some "qa"⟩, ⟨"docB", none⟩]
    [("A", 0), ("B", 1)] (by decide) (by decide)
